import Mathlib

/-! ## Definitions: the embedding of the data model and operations -/

inductive LineKind
  | Start
  | Continue
deriving DecidableEq, Repr

structure Line where
  content : List Char
  kind : LineKind
deriving DecidableEq, Repr

structure Cmd where
  lines : List Line
deriving DecidableEq, Repr

structure Coords where
  x : Nat
  y : Nat
deriving DecidableEq, Repr

structure Dims where
  width : Nat
  height : Nat
deriving DecidableEq, Repr

def Line.new (kind : LineKind) : Line := ⟨[], kind⟩

def Line.new_start : Line := Line.new .Start

def Line.new_continue : Line := Line.new .Continue

def Line.with_capacity : Line := ⟨[], .Start⟩

@[reducible] def Line.is_start (l : Line) : Prop := l.kind = LineKind.Start

@[reducible] def Line.is_continue (l : Line) : Prop := l.kind = LineKind.Continue

def Line.count_graphemes (l : Line) : Nat := l.content.length

def Line.push_str (l : Line) (s : List Char) : Line := ⟨l.content ++ s, l.kind⟩

def Line.rm_grapheme_at (l : Line) (xpos : Nat) : Line :=
  ⟨((l.content.enum.filter (fun gi => gi.1 ≠ xpos)).map (fun gi => gi.2)), l.kind⟩

def Line.rm_grapheme_before (l : Line) (xpos : Nat) : Line :=
  if xpos = 0 then l else l.rm_grapheme_at (xpos - 1)

def chunksOfFuel (W : Nat) : Nat → List Char → List (List Char)
  | _, [] => []
  | 0, _ => []
  | fuel + 1, l => l.take W :: chunksOfFuel W fuel (l.drop W)

def chunksOf (W : Nat) (l : List Char) : List (List Char) :=
  chunksOfFuel W l.length l

def Line.uncompress (l : Line) (W P : Nat) : List Line :=
  let start := if l.is_start then P else 0
  let first := l.content.take (W - start)
  let rest := l.content.drop (W - start)
  (if first.isEmpty then [] else [⟨first, l.kind⟩]) ++
    (chunksOf W rest).map (fun ch => ⟨ch, LineKind.Continue⟩)

def Line.fills_editor_width (l : Line) (W P lidx : Nat) : Prop :=
  if lidx = 0 then l.count_graphemes = W - P
  else if l.is_start then l.count_graphemes = W - P
  else l.count_graphemes = W

instance (l : Line) (W P lidx : Nat) : Decidable (l.fills_editor_width W P lidx) := by
  unfold Line.fills_editor_width
  infer_instance

def push_str_onto_last (clines : List Line) (s : List Char) : List Line :=
  match clines.getLast? with
  | none => clines
  | some last => clines.dropLast ++ [last.push_str s]

def compress_step (clines : List Line) (p : Nat × Line) : List Line :=
  if p.1 = 0 then push_str_onto_last clines p.2.content
  else if p.2.kind = LineKind.Continue then push_str_onto_last clines p.2.content
  else clines ++ [p.2]

def Cmd.compress (c : Cmd) : Cmd :=
  if c.lines.isEmpty then c
  else ⟨c.lines.enum.foldl compress_step [Line.new_start]⟩

def wrap_rows (c : Cmd) (W P : Nat) : List Line :=
  c.lines.flatMap
    (fun line => if line.content.isEmpty then [line] else line.uncompress W P)

def Cmd.uncompress (c : Cmd) (W P : Nat) : Cmd :=
  let ulines := wrap_rows c W P
  match ulines.getLast? with
  | none => ⟨ulines⟩
  | some last =>
      if last.fills_editor_width W P (ulines.length - 1) then ⟨ulines ++ [Line.new_continue]⟩
      else ⟨ulines⟩

def Cmd.count_lines (c : Cmd) : Nat := c.lines.length

def Cmd.is_empty (c : Cmd) : Prop := c.lines = []

instance (c : Cmd) : Decidable c.is_empty := by
  unfold Cmd.is_empty
  infer_instance

def Cmd.default : Cmd := ⟨[Line.with_capacity]⟩

def Cmd.end_of_cmd (c : Cmd) : Coords :=
  match c.lines.getLast? with
  | some last => ⟨last.count_graphemes, c.lines.length - 1⟩
  | none => ⟨0, 0⟩

def consume (last : Line) : List Line → List Line
  | [] => [last]
  | l :: ls =>
    if l.kind = LineKind.Continue then consume (last.push_str l.content) ls
    else last :: consume l ls

def Cmd.rm_grapheme_at (c : Cmd) (pos : Coords) : Cmd :=
  if c.is_empty then c
  else ⟨c.lines.set pos.y ((c.lines.getD pos.y Line.new_start).rm_grapheme_at pos.x)⟩

def cmd_rm_grapheme_at_cursor_edit (buffer : Cmd) (cursor : Coords) : Cmd × Coords :=
  let is_end_of_line := cursor.x = (buffer.lines.getD cursor.y Line.new_start).count_graphemes
  let has_next_line := cursor.y + 1 < buffer.count_lines
  if is_end_of_line ∧ has_next_line then (buffer.rm_grapheme_at cursor, cursor)
  else if is_end_of_line ∧ ¬ has_next_line then (buffer, cursor)
  else (buffer.rm_grapheme_at cursor, cursor)

def Cmd.rm_grapheme_before
    (c : Cmd) (pos : Coords) (editor_dims : Dims) (prompt_len : Nat) : Cmd :=
  if c.is_empty then c
  else
    let is_continuation := (c.lines.getD pos.y Line.new_start).is_continue
    let is_prompt_line := pos.y = 0
    let is_start_of_prompt_line := pos.x ≤ prompt_len
    let is_start_of_nonprompt_line :=
      if is_continuation then pos.x = 0 else pos.x ≤ prompt_len
    if is_prompt_line ∧ is_start_of_prompt_line then c
    else if is_prompt_line then
      ⟨c.lines.set pos.y ((c.lines.getD pos.y Line.new_start).rm_grapheme_before pos.x)⟩
    else if is_start_of_nonprompt_line then
      let removed := c.lines.getD pos.y Line.new_start
      let lines' := c.lines.eraseIdx pos.y
      ⟨lines'.set (pos.y - 1)
        ((lines'.getD (pos.y - 1) Line.new_start).push_str removed.content)⟩
    else ⟨c.lines.set pos.y ((c.lines.getD pos.y Line.new_start).rm_grapheme_before pos.x)⟩

def Cmd.insert_empty_line (c : Cmd) (pos : Coords) : Cmd :=
  let line := c.lines.getD pos.y Line.new_start
  ⟨(c.lines.set pos.y ⟨line.content.take pos.x, line.kind⟩).insertIdx (pos.y + 1)
    ⟨line.content.drop pos.x, LineKind.Start⟩⟩

def cmd_insert_newline_edit (buffer : Cmd) (cursor : Coords) : Cmd × Coords :=
  (buffer.insert_empty_line cursor, ⟨0, cursor.y + 1⟩)

def uncursor_loop (W : Nat) : List Line → Nat → Nat → Nat × Nat
  | [], x, y => (x, y)
  | unline :: rest, x, y =>
    let width := min W unline.count_graphemes
    if x > width then uncursor_loop W rest (x - width) (y + 1) else (x, y)

def calculate_uncursor (cmd uncompressed : Cmd) (cursor : Coords) (W P : Nat) : Coords :=
  let prev_unlines : List (List Line) :=
    (List.range cursor.y).map (fun y => (cmd.lines.getD y Line.new_start).uncompress W P)
  let y0 := (prev_unlines.map List.length).sum
  let unlines_for_line := (cmd.lines.getD cursor.y Line.new_start).uncompress W P
  let xy := uncursor_loop W unlines_for_line cursor.x y0
  if (uncompressed.lines.getD xy.2 Line.new_start).is_start then ⟨xy.1 + P, xy.2⟩
  else ⟨xy.1, xy.2⟩

structure History where
  cmds : List Cmd
deriving DecidableEq, Repr

def History.UPPER_LIMIT : Nat := 1000

def History.default : History := ⟨[]⟩

def History.add_cmd (h : History) (cmd : Cmd) : History × Nat :=
  (⟨h.cmds ++ [cmd]⟩, h.cmds.length)

def History.len (h : History) : Nat := h.cmds.length

def History.max_idx (h : History) : Option Nat :=
  if h.len > 0 then some (h.len - 1) else none

def uniqueAux (seen : List Cmd) : List Cmd → List Cmd
  | [] => []
  | c :: cs => if c ∈ seen then uniqueAux seen cs else c :: uniqueAux (c :: seen) cs

def History.trimmed (h : History) : History :=
  ⟨((uniqueAux [] h.cmds.reverse).take History.UPPER_LIMIT).foldl
      (fun cmds cmd => cmd :: cmds) []⟩

def Cmd.to_source_code (c : Cmd) : List Char :=
  List.intercalate ['\n'] ((c.lines.filter (fun l => ¬ l.content.isEmpty)).map
    (fun l => l.content))

def History.reverse_search (h : History) (matcher : Option (List Char → Bool)) : List Nat :=
  match matcher with
  | none => []
  | some is_match =>
      ((h.cmds.enum.reverse).filter (fun p => is_match p.2.to_source_code)).map
        (fun p => p.1)

structure EditState where
  buffer : Cmd
  cursor : Coords
deriving DecidableEq, Repr

structure NavigateState where
  hidx : Nat
  backup : Cmd
  preview : Cmd
  cursor : Coords
deriving DecidableEq, Repr

structure SearchState where
  regex : List Char
  backup : Cmd
  preview : Cmd
  cursor : Coords
  «matches» : List Nat
  current : Nat
deriving DecidableEq, Repr

inductive State
  | Edit (s : EditState)
  | Navigate (s : NavigateState)
  | Search (s : SearchState)
deriving DecidableEq, Repr

def cmd_cancel_nav (st : State) : State :=
  match st with
  | .Edit _ => st
  | .Navigate ns => .Edit ⟨ns.backup, ns.backup.end_of_cmd⟩
  | .Search ss => .Edit ⟨ss.backup, ss.backup.end_of_cmd⟩

def cmd_nav_history_up (st : State) (history : History) : State :=
  match st with
  | .Edit es =>
    match history.max_idx with
    | none => st
    | some max_hidx =>
        .Navigate ⟨max_hidx, es.buffer, history.cmds.getD max_hidx Cmd.default,
          (history.cmds.getD max_hidx Cmd.default).end_of_cmd⟩
  | .Navigate ns =>
    if ns.hidx = 0 then st
    else
      .Navigate ⟨ns.hidx - 1, ns.backup, history.cmds.getD (ns.hidx - 1) Cmd.default,
        (history.cmds.getD (ns.hidx - 1) Cmd.default).end_of_cmd⟩
  | .Search ss =>
    if ss.current ≥ ss.«matches».length - 1 then st
    else
      .Search ⟨ss.regex, ss.backup,
        (if ss.«matches».isEmpty then Cmd.default
         else history.cmds.getD (ss.«matches».getD (ss.current + 1) 0) Cmd.default),
        ss.cursor, ss.«matches», ss.current + 1⟩

/-! ## Theorems -/

theorem chunksOfFuel_congr (W : Nat) (hW : 1 ≤ W) :
    ∀ (f1 : Nat) (f2 : Nat) (l : List Char), l.length ≤ f1 → l.length ≤ f2 →
      chunksOfFuel W f1 l = chunksOfFuel W f2 l := by
  intro f1
  induction f1 with
  | zero =>
    intro f2 l h1 _
    have : l = [] := by
      cases l with
      | nil => rfl
      | cons a as => simp at h1
    subst this
    cases f2 <;> rfl
  | succ f1 ih =>
    intro f2 l h1 h2
    cases l with
    | nil => cases f2 <;> rfl
    | cons a as =>
      cases f2 with
      | zero => simp at h2
      | succ f2 =>
        show ((a :: as).take W) :: chunksOfFuel W f1 ((a :: as).drop W)
          = ((a :: as).take W) :: chunksOfFuel W f2 ((a :: as).drop W)
        have hd : ((a :: as).drop W).length ≤ f1 := by
          simp only [List.length_drop, List.length_cons] at *
          omega
        have hd2 : ((a :: as).drop W).length ≤ f2 := by
          simp only [List.length_drop, List.length_cons] at *
          omega
        rw [ih f2 _ hd hd2]

theorem chunksOf_eq (W : Nat) (hW : 1 ≤ W) (l : List Char) :
    chunksOf W l = if l = [] then [] else l.take W :: chunksOf W (l.drop W) := by
  cases l with
  | nil => rfl
  | cons a as =>
    rw [if_neg (by simp)]
    show ((a :: as).take W) :: chunksOfFuel W (a :: as).length.pred ((a :: as).drop W)
      = ((a :: as).take W) :: chunksOf W ((a :: as).drop W)
    rw [chunksOfFuel_congr W hW _ ((a :: as).drop W).length _ (by simp; omega) le_rfl]
    rfl

theorem push_str_onto_last_concat (pre : List Line) (a : Line) (s : List Char) :
    push_str_onto_last (pre ++ [a]) s = pre ++ [a.push_str s] := by
  simp [push_str_onto_last, List.getLast?_concat, List.dropLast_concat]

theorem foldl_compress_step (ls : List Line) :
    ∀ (n : Nat) (pre : List Line) (a : Line), 1 ≤ n →
      (List.enumFrom n ls).foldl compress_step (pre ++ [a]) = pre ++ consume a ls := by
  induction ls with
  | nil => intro n pre a _; simp [consume]
  | cons l ls ih =>
    intro n pre a hn
    rw [List.enumFrom_cons, List.foldl_cons]
    have hn0 : n ≠ 0 := by omega
    by_cases hk : l.kind = LineKind.Continue
    · have hstep : compress_step (pre ++ [a]) (n, l) = pre ++ [a.push_str l.content] := by
        simp [compress_step, hn0, hk, push_str_onto_last_concat]
      rw [hstep, ih (n + 1) pre (a.push_str l.content) (by omega), consume, if_pos hk]
    · have hstep : compress_step (pre ++ [a]) (n, l) = (pre ++ [a]) ++ [l] := by
        simp [compress_step, hn0, hk]
      rw [hstep, ih (n + 1) (pre ++ [a]) l (by omega), consume, if_neg hk,
        List.append_assoc]
      rfl

theorem compress_eq_consume (l0 : Line) (ls : List Line) :
    Cmd.compress ⟨l0 :: ls⟩ = ⟨consume ⟨l0.content, LineKind.Start⟩ ls⟩ := by
  have h0 : compress_step [Line.new_start] (0, l0) = [] ++ [⟨l0.content, LineKind.Start⟩] := by
    simp [compress_step, push_str_onto_last, Line.new_start, Line.new, Line.push_str]
  rw [Cmd.compress]
  simp only [List.isEmpty_cons, if_neg Bool.false_ne_true]
  rw [List.enum_cons, List.foldl_cons, h0, foldl_compress_step ls 1 [] _ (by omega)]
  simp

theorem consume_cont_group (chunks : List (List Char)) :
    ∀ (a : Line) (X : List Line),
      consume a ((chunks.map fun ch => (⟨ch, LineKind.Continue⟩ : Line)) ++ X)
        = consume ⟨a.content ++ chunks.flatten, a.kind⟩ X := by
  induction chunks with
  | nil => intro a X; simp
  | cons ch chunks ih =>
    intro a X
    rw [List.map_cons, List.cons_append, consume, if_pos rfl, ih]
    simp [Line.push_str, List.append_assoc]

theorem consume_append_empty_continue (rows : List Line) :
    ∀ (a : Line), consume a (rows ++ [Line.new_continue]) = consume a rows := by
  induction rows with
  | nil =>
    intro a
    simp [consume, Line.new_continue, Line.new, Line.push_str]
  | cons r rows ih =>
    intro a
    by_cases hk : r.kind = LineKind.Continue
    · rw [List.cons_append, consume, if_pos hk, ih, consume, if_pos hk]
    · rw [List.cons_append, consume, if_neg hk, ih, consume, if_neg hk]

theorem chunksOf_flatten_aux (W : Nat) (hW : 1 ≤ W) :
    ∀ (n : Nat) (l : List Char), l.length ≤ n → (chunksOf W l).flatten = l := by
  have hW0 : ¬ W = 0 := by omega
  intro n
  induction n with
  | zero =>
    intro l hl
    have hnil : l = [] := by
      cases l with
      | nil => rfl
      | cons a as => simp at hl
    subst hnil
    rw [chunksOf_eq W hW]
    simp
  | succ n ih =>
    intro l hl
    by_cases hnil : l = []
    · subst hnil
      rw [chunksOf_eq W hW]
      simp
    · rw [chunksOf_eq W hW, if_neg hnil]
      have hlt : (l.drop W).length ≤ n := by
        have : 0 < l.length := List.length_pos.mpr hnil
        simp only [List.length_drop]
        omega
      rw [List.flatten_cons, ih _ hlt, List.take_append_drop]

theorem chunksOf_flatten (W : Nat) (hW : 1 ≤ W) (l : List Char) :
    (chunksOf W l).flatten = l :=
  chunksOf_flatten_aux W hW l.length l le_rfl

theorem uncompress_start_line (l : Line) (W P : Nat)
    (hk : l.kind = LineKind.Start) (hne : l.content ≠ []) (hWP : P + 1 ≤ W) :
    l.uncompress W P
      = (⟨l.content.take (W - P), l.kind⟩ : Line) ::
        (chunksOf W (l.content.drop (W - P))).map (fun ch => (⟨ch, LineKind.Continue⟩ : Line)) := by
  have htake : ¬ ((l.content.take (W - P)).isEmpty = true) := by
    rw [List.isEmpty_iff, List.take_eq_nil_iff]
    push_neg
    exact ⟨by omega, hne⟩
  simp [Line.uncompress, Line.is_start, hk, htake]

theorem consume_wrap_rows (W P : Nat) (hWP : P + 1 ≤ W) :
    ∀ (ls : List Line), (∀ l ∈ ls, l.kind = LineKind.Start) →
      ∀ (a : Line),
        consume a (ls.flatMap
          (fun line => if line.content.isEmpty then [line] else line.uncompress W P))
          = a :: ls := by
  intro ls
  induction ls with
  | nil => intro _ a; simp [consume]
  | cons l ls ih =>
    intro hall a
    have hk : l.kind = LineKind.Start := hall l (by simp)
    have hkc : ¬ l.kind = LineKind.Continue := by rw [hk]; simp
    rw [List.flatMap_cons]
    by_cases hemp : l.content.isEmpty
    · rw [if_pos hemp, List.cons_append, List.nil_append, consume, if_neg hkc,
        ih (fun x hx => hall x (by simp [hx])) l]
    · rw [if_neg hemp,
        uncompress_start_line l W P hk (by simpa [List.isEmpty_iff] using hemp) hWP,
        List.cons_append, consume, if_neg (by simpa using hkc), consume_cont_group,
        chunksOf_flatten W (by omega), List.take_append_drop]
      have hl : (⟨l.content, l.kind⟩ : Line) = l := by cases l; rfl
      rw [hl, ih (fun x hx => hall x (by simp [hx])) l]

theorem uncompress_def (c : Cmd) (W P : Nat) :
    c.uncompress W P
      = match (wrap_rows c W P).getLast? with
        | none => ⟨wrap_rows c W P⟩
        | some last =>
            if last.fills_editor_width W P ((wrap_rows c W P).length - 1)
            then ⟨wrap_rows c W P ++ [Line.new_continue]⟩
            else ⟨wrap_rows c W P⟩ := rfl

theorem compress_uncompress_roundtrip (cmd : Cmd) (W P : Nat)
    (hcomp : ∀ l ∈ cmd.lines, l.kind = LineKind.Start) (hWP : P + 1 ≤ W) :
    (cmd.uncompress W P).compress = cmd := by
  rcases hc : cmd.lines with _ | ⟨l0, ls⟩
  · have hwr : wrap_rows cmd W P = [] := by simp [wrap_rows, hc]
    rw [uncompress_def, hwr]
    cases cmd
    simp_all [Cmd.compress]
  · have hk0 : l0.kind = LineKind.Start := hcomp l0 (by simp [hc])
    have hall : ∀ x ∈ ls, x.kind = LineKind.Start := fun x hx => hcomp x (by simp [hc, hx])
    have hwr : wrap_rows cmd W P
        = cmd.lines.flatMap
            (fun line => if line.content.isEmpty then [line] else line.uncompress W P) := rfl
    -- Split the first line's expansion into its head row and the rest.
    have hsplit : ∃ rest, wrap_rows cmd W P
          = (⟨l0.content.take (W - P), LineKind.Start⟩ : Line) :: rest ∧
          consume (⟨(l0.content.take (W - P)), LineKind.Start⟩ : Line) rest = cmd.lines := by
      by_cases hemp : l0.content.isEmpty
      · have hce : l0.content = [] := by simpa [List.isEmpty_iff] using hemp
        have hl0 : l0 = (⟨[], LineKind.Start⟩ : Line) := by
          cases l0
          simp_all
        refine ⟨ls.flatMap
            (fun line => if line.content.isEmpty then [line] else line.uncompress W P), ?_, ?_⟩
        · rw [hwr, hc, List.flatMap_cons, if_pos hemp, hl0]
          simp
        · rw [hce]
          simp only [List.take_nil]
          rw [consume_wrap_rows W P hWP ls hall, hc, hl0]
      · refine ⟨(chunksOf W (l0.content.drop (W - P))).map
            (fun ch => (⟨ch, LineKind.Continue⟩ : Line)) ++
            ls.flatMap (fun line => if line.content.isEmpty then [line] else line.uncompress W P),
            ?_, ?_⟩
        · rw [hwr, hc, List.flatMap_cons, if_neg hemp,
            uncompress_start_line l0 W P hk0 (by simpa [List.isEmpty_iff] using hemp) hWP, hk0]
          simp
        · rw [consume_cont_group, chunksOf_flatten W (by omega), List.take_append_drop,
            consume_wrap_rows W P hWP ls hall, hc]
          congr 1
          cases l0
          simp_all
    obtain ⟨rest, hw, hcons⟩ := hsplit
    rw [uncompress_def]
    rcases hlast : (wrap_rows cmd W P).getLast? with _ | last
    · rw [List.getLast?_eq_none_iff] at hlast
      rw [hw] at hlast
      exact absurd hlast (by simp)
    · by_cases hfills : last.fills_editor_width W P ((wrap_rows cmd W P).length - 1)
      · simp only [if_pos hfills]
        rw [hw, List.cons_append, compress_eq_consume, consume_append_empty_continue, hcons]
      · simp only [if_neg hfills]
        rw [hw, compress_eq_consume, hcons]

theorem compress_uncompress_roundtrip_witness :
    (∀ l ∈ (Cmd.mk [⟨['a', 'b', 'c', 'd', 'e'], LineKind.Start⟩,
        ⟨['x'], LineKind.Start⟩]).lines, l.kind = LineKind.Start) ∧
    ((Cmd.mk [⟨['a', 'b', 'c', 'd', 'e'], LineKind.Start⟩,
        ⟨['x'], LineKind.Start⟩]).uncompress 3 1).compress
      = Cmd.mk [⟨['a', 'b', 'c', 'd', 'e'], LineKind.Start⟩, ⟨['x'], LineKind.Start⟩] :=
  ⟨by decide, compress_uncompress_roundtrip _ 3 1 (by decide) (by omega)⟩

theorem uncompress_trailing_empty_row (cmd : Cmd) (W P : Nat)
    (hW : 1 ≤ W) (hPW : P ≤ W) (last : Line)
    (hlast : (wrap_rows cmd W P).getLast? = some last) :
    ((if (wrap_rows cmd W P).length - 1 = 0 ∨ last.kind = LineKind.Start
        then last.count_graphemes = W - P
        else last.count_graphemes = W) →
      (cmd.uncompress W P).lines
          = wrap_rows cmd W P ++ [Line.mk [] LineKind.Continue] ∧
      (cmd.uncompress W P).count_lines = (wrap_rows cmd W P).length + 1) ∧
    (¬ (if (wrap_rows cmd W P).length - 1 = 0 ∨ last.kind = LineKind.Start
        then last.count_graphemes = W - P
        else last.count_graphemes = W) →
      (cmd.uncompress W P).lines = wrap_rows cmd W P ∧
      (cmd.uncompress W P).count_lines = (wrap_rows cmd W P).length) := by
  have hequiv :
      (if (wrap_rows cmd W P).length - 1 = 0 ∨ last.kind = LineKind.Start
        then last.count_graphemes = W - P
        else last.count_graphemes = W)
      ↔ last.fills_editor_width W P ((wrap_rows cmd W P).length - 1) := by
    unfold Line.fills_editor_width Line.is_start
    by_cases h0 : (wrap_rows cmd W P).length - 1 = 0
    · simp [h0]
    · by_cases hk : last.kind = LineKind.Start <;> simp [h0, hk]
  have hunc : cmd.uncompress W P
      = if last.fills_editor_width W P ((wrap_rows cmd W P).length - 1)
        then ⟨wrap_rows cmd W P ++ [Line.new_continue]⟩
        else ⟨wrap_rows cmd W P⟩ := by
    rw [uncompress_def, hlast]
  constructor
  · intro hfil
    rw [hunc, if_pos (hequiv.mp hfil)]
    exact ⟨rfl, by simp [Cmd.count_lines]⟩
  · intro hfil
    rw [hunc, if_neg (fun hc => hfil (hequiv.mpr hc))]
    exact ⟨rfl, by simp [Cmd.count_lines]⟩

theorem uncompress_trailing_empty_row_witness :
    ((Cmd.mk [⟨['a', 'b'], LineKind.Start⟩]).uncompress 3 1).lines
        = wrap_rows (Cmd.mk [⟨['a', 'b'], LineKind.Start⟩]) 3 1
          ++ [Line.mk [] LineKind.Continue] ∧
    ((Cmd.mk [⟨['a'], LineKind.Start⟩]).uncompress 3 1).lines
        = wrap_rows (Cmd.mk [⟨['a'], LineKind.Start⟩]) 3 1 := by
  constructor
  · exact ((uncompress_trailing_empty_row (Cmd.mk [⟨['a', 'b'], LineKind.Start⟩]) 3 1
      (by omega) (by omega) ⟨['a', 'b'], LineKind.Start⟩ (by decide)).1 (by decide)).1
  · exact ((uncompress_trailing_empty_row (Cmd.mk [⟨['a'], LineKind.Start⟩]) 3 1
      (by omega) (by omega) ⟨['a'], LineKind.Start⟩ (by decide)).2 (by decide)).1

theorem enumFrom_filter_ne_map_snd {α : Type} (i : Nat) :
    ∀ (l : List α) (n : Nat),
      ((List.enumFrom n l).filter (fun p => p.1 ≠ i)).map (fun p => p.2)
        = if i < n then l else l.take (i - n) ++ l.drop (i - n + 1) := by
  intro l
  induction l with
  | nil => intro n; simp
  | cons a as ih =>
    intro n
    rw [List.enumFrom_cons, List.filter_cons]
    by_cases hni : n = i
    · subst hni
      rw [if_neg (by simp), ih (n + 1), if_pos (by omega), if_neg (by omega)]
      simp
    · rw [if_pos (by simp [hni]), List.map_cons, ih (n + 1)]
      by_cases hlt : i < n
      · rw [if_pos (by omega), if_pos hlt]
      · rw [if_neg (by omega), if_neg hlt]
        have h1 : i - n = (i - (n + 1)) + 1 := by omega
        rw [h1]
        simp [List.drop_succ_cons, List.take_succ_cons]

theorem rm_grapheme_at_spec (l : Line) (x : Nat) :
    l.rm_grapheme_at x
      = ⟨l.content.take x ++ l.content.drop (x + 1), l.kind⟩ := by
  unfold Line.rm_grapheme_at
  rw [List.enum, enumFrom_filter_ne_map_snd]
  simp

theorem rm_grapheme_at_end_of_line_merges_nothing :
    cmd_rm_grapheme_at_cursor_edit
        (Cmd.mk [⟨['f', 'o', 'o'], LineKind.Start⟩, ⟨['b', 'a', 'r'], LineKind.Start⟩]) ⟨3, 0⟩
      = (Cmd.mk [⟨['f', 'o', 'o'], LineKind.Start⟩, ⟨['b', 'a', 'r'], LineKind.Start⟩], ⟨3, 0⟩) ∧
    (Cmd.mk [⟨['f', 'o', 'o'], LineKind.Start⟩, ⟨['b', 'a', 'r'], LineKind.Start⟩]).rm_grapheme_at
        ⟨3, 0⟩
      = Cmd.mk [⟨['f', 'o', 'o'], LineKind.Start⟩, ⟨['b', 'a', 'r'], LineKind.Start⟩] ∧
    ¬ (cmd_rm_grapheme_at_cursor_edit
        (Cmd.mk [⟨['f', 'o', 'o'], LineKind.Start⟩, ⟨['b', 'a', 'r'], LineKind.Start⟩]) ⟨3, 0⟩
      = (Cmd.mk [⟨['f', 'o', 'o', 'b', 'a', 'r'], LineKind.Start⟩], ⟨3, 0⟩)) := by
  refine ⟨by decide, by decide, by decide⟩

theorem rm_grapheme_before_prompt_column_nop :
    (Cmd.mk [⟨['a', 'b'], LineKind.Start⟩]).rm_grapheme_before ⟨1, 0⟩ ⟨80, 1⟩ 1
      = Cmd.mk [⟨['a', 'b'], LineKind.Start⟩] ∧
    ¬ ((Cmd.mk [⟨['a', 'b'], LineKind.Start⟩]).rm_grapheme_before ⟨1, 0⟩ ⟨80, 1⟩ 1
      = Cmd.mk [⟨['b'], LineKind.Start⟩]) := by
  refine ⟨by decide, by decide⟩

theorem rm_grapheme_before_case_table
    (c : Cmd) (pos : Coords) (dims : Dims)
    (hy : pos.y < c.lines.length)
    (hx : pos.x ≤ (c.lines.getD pos.y Line.new_start).count_graphemes) :
    (pos.x = 0 ∧ pos.y = 0 → c.rm_grapheme_before pos dims 0 = c) ∧
    (pos.y = 0 ∧ 0 < pos.x →
      c.rm_grapheme_before pos dims 0
        = ⟨c.lines.set 0
            ⟨(c.lines.getD 0 Line.new_start).content.take (pos.x - 1)
              ++ (c.lines.getD 0 Line.new_start).content.drop pos.x,
              (c.lines.getD 0 Line.new_start).kind⟩⟩) ∧
    (0 < pos.y ∧ pos.x = 0 →
      c.rm_grapheme_before pos dims 0
        = ⟨c.lines.take (pos.y - 1)
            ++ ⟨(c.lines.getD (pos.y - 1) Line.new_start).content
                  ++ (c.lines.getD pos.y Line.new_start).content,
                (c.lines.getD (pos.y - 1) Line.new_start).kind⟩
              :: c.lines.drop (pos.y + 1)⟩) ∧
    (0 < pos.y ∧ 0 < pos.x →
      c.rm_grapheme_before pos dims 0
        = ⟨c.lines.set pos.y
            ⟨(c.lines.getD pos.y Line.new_start).content.take (pos.x - 1)
              ++ (c.lines.getD pos.y Line.new_start).content.drop pos.x,
              (c.lines.getD pos.y Line.new_start).kind⟩⟩) := by
  have hne : ¬ c.is_empty := by
    unfold Cmd.is_empty
    intro hc
    rw [hc] at hy
    simp at hy
  refine ⟨?_, ?_, ?_, ?_⟩
  · rintro ⟨hx0, hy0⟩
    rw [Cmd.rm_grapheme_before, if_neg hne, if_pos ⟨hy0, by omega⟩]
  · rintro ⟨hy0, hx0⟩
    rw [Cmd.rm_grapheme_before, if_neg hne, if_neg (by omega), if_pos hy0]
    rw [Line.rm_grapheme_before, if_neg (by omega), rm_grapheme_at_spec]
    have : pos.x - 1 + 1 = pos.x := by omega
    rw [this, hy0]
  · rintro ⟨hy0, hx0⟩
    have hyne : ¬ pos.y = 0 := by omega
    have hsnp : (if (c.lines.getD pos.y Line.new_start).is_continue
        then pos.x = 0 else pos.x ≤ 0) := by
      by_cases hcont : (c.lines.getD pos.y Line.new_start).is_continue
      · rw [if_pos hcont]; exact hx0
      · rw [if_neg hcont]; omega
    rw [Cmd.rm_grapheme_before, if_neg hne,
      if_neg (by rintro ⟨h1, _⟩; exact hyne h1), if_neg hyne, if_pos hsnp]
    have herase : c.lines.eraseIdx pos.y
        = c.lines.take pos.y ++ c.lines.drop (pos.y + 1) :=
      List.eraseIdx_eq_take_drop_succ c.lines pos.y
    have htake : c.lines.take pos.y
        = c.lines.take (pos.y - 1) ++ (c.lines[pos.y - 1]?).toList := by
      have hsucc : pos.y = (pos.y - 1) + 1 := by omega
      rw [hsucc, List.take_succ, ← hsucc]
    have hgety : c.lines[pos.y - 1]? = some (c.lines.getD (pos.y - 1) Line.new_start) := by
      have hlt : pos.y - 1 < c.lines.length := by omega
      rw [List.getD_eq_getElem?_getD, List.getElem?_eq_getElem hlt]
      rfl
    have hgetmid : (c.lines.eraseIdx pos.y).getD (pos.y - 1) Line.new_start
        = c.lines.getD (pos.y - 1) Line.new_start := by
      rw [herase, List.getD_eq_getElem?_getD,
        List.getElem?_append_left (by
          have h1 : pos.y ≤ c.lines.length := by omega
          simp only [List.length_take]
          omega),
        List.getElem?_take, if_pos (by omega), ← List.getD_eq_getElem?_getD]
    dsimp only
    rw [hgetmid]
    congr 1
    rw [herase, htake, hgety]
    rw [List.set_append, if_pos (by
      simp only [List.length_append, List.length_take, Option.toList_some, List.length_cons,
        List.length_nil]
      omega)]
    rw [List.set_append, if_neg (by simp only [List.length_take]; omega)]
    have hlen : pos.y - 1 - (List.take (pos.y - 1) c.lines).length = 0 := by
      simp only [List.length_take]
      omega
    rw [hlen]
    simp [Line.push_str]
  · rintro ⟨hy0, hx0⟩
    have hyne : ¬ pos.y = 0 := by omega
    have hsnp : ¬ (if (c.lines.getD pos.y Line.new_start).is_continue
        then pos.x = 0 else pos.x ≤ 0) := by
      by_cases hcont : (c.lines.getD pos.y Line.new_start).is_continue
      · rw [if_pos hcont]; omega
      · rw [if_neg hcont]; omega
    rw [Cmd.rm_grapheme_before, if_neg hne,
      if_neg (by rintro ⟨h1, _⟩; exact hyne h1), if_neg hyne, if_neg hsnp]
    rw [Line.rm_grapheme_before, if_neg (by omega), rm_grapheme_at_spec]
    have : pos.x - 1 + 1 = pos.x := by omega
    rw [this]

theorem rm_grapheme_before_case_table_witness :
    (Cmd.mk [⟨['a', 'b'], LineKind.Start⟩, ⟨['c', 'd'], LineKind.Start⟩]).rm_grapheme_before
        ⟨1, 1⟩ ⟨80, 1⟩ 0
      = Cmd.mk [⟨['a', 'b'], LineKind.Start⟩, ⟨['d'], LineKind.Start⟩] ∧
    (Cmd.mk [⟨['a', 'b'], LineKind.Start⟩, ⟨['c', 'd'], LineKind.Start⟩]).rm_grapheme_before
        ⟨0, 1⟩ ⟨80, 1⟩ 0
      = Cmd.mk [⟨['a', 'b', 'c', 'd'], LineKind.Start⟩] := by
  constructor
  · have h := (rm_grapheme_before_case_table
      (Cmd.mk [⟨['a', 'b'], LineKind.Start⟩, ⟨['c', 'd'], LineKind.Start⟩]) ⟨1, 1⟩ ⟨80, 1⟩
      (by decide) (by decide)).2.2.2 ⟨by decide, by decide⟩
    rw [h]
    decide
  · have h := (rm_grapheme_before_case_table
      (Cmd.mk [⟨['a', 'b'], LineKind.Start⟩, ⟨['c', 'd'], LineKind.Start⟩]) ⟨0, 1⟩ ⟨80, 1⟩
      (by decide) (by decide)).2.2.1 ⟨by decide, by decide⟩
    rw [h]
    decide

theorem insertIdx_append_cons {α : Type} (a : α) :
    ∀ (pre suf : List α), (pre ++ suf).insertIdx pre.length a = pre ++ a :: suf := by
  intro pre
  induction pre with
  | nil => intro suf; simp
  | cons p pre ih =>
    intro suf
    simp only [List.cons_append, List.length_cons, List.insertIdx_succ_cons, ih]

theorem insert_newline_splits_line (buffer : Cmd) (cursor : Coords)
    (hy : cursor.y < buffer.lines.length) :
    cmd_insert_newline_edit buffer cursor
      = (⟨buffer.lines.take cursor.y
            ++ (⟨(buffer.lines.getD cursor.y Line.new_start).content.take cursor.x,
                  (buffer.lines.getD cursor.y Line.new_start).kind⟩ : Line)
            :: (⟨(buffer.lines.getD cursor.y Line.new_start).content.drop cursor.x,
                  LineKind.Start⟩ : Line)
            :: buffer.lines.drop (cursor.y + 1)⟩,
          ⟨0, cursor.y + 1⟩) := by
  unfold cmd_insert_newline_edit Cmd.insert_empty_line
  dsimp only
  congr 1
  congr 1
  rw [List.set_eq_take_append_cons_drop, if_pos hy]
  have hsplit : List.take cursor.y buffer.lines
        ++ (⟨(buffer.lines.getD cursor.y Line.new_start).content.take cursor.x,
              (buffer.lines.getD cursor.y Line.new_start).kind⟩ : Line)
        :: List.drop (cursor.y + 1) buffer.lines
      = (List.take cursor.y buffer.lines
          ++ [(⟨(buffer.lines.getD cursor.y Line.new_start).content.take cursor.x,
                (buffer.lines.getD cursor.y Line.new_start).kind⟩ : Line)])
        ++ List.drop (cursor.y + 1) buffer.lines := by
    simp
  rw [hsplit]
  have hplen : (List.take cursor.y buffer.lines
      ++ [(⟨(buffer.lines.getD cursor.y Line.new_start).content.take cursor.x,
            (buffer.lines.getD cursor.y Line.new_start).kind⟩ : Line)]).length
      = cursor.y + 1 := by
    simp only [List.length_append, List.length_take, List.length_cons, List.length_nil]
    omega
  rw [← hplen, insertIdx_append_cons]
  simp

theorem insert_newline_splits_line_witness :
    cmd_insert_newline_edit (Cmd.mk [⟨['h', 'e', 'l', 'l', 'o'], LineKind.Start⟩]) ⟨2, 0⟩
      = (Cmd.mk [⟨['h', 'e'], LineKind.Start⟩, ⟨['l', 'l', 'o'], LineKind.Start⟩], ⟨0, 1⟩) := by
  have h := insert_newline_splits_line
    (Cmd.mk [⟨['h', 'e', 'l', 'l', 'o'], LineKind.Start⟩]) ⟨2, 0⟩ (by decide)
  rw [h]
  decide

theorem uncursor_loop_cons (W : Nat) (r : Line) (rest : List Line) (x y : Nat) :
    uncursor_loop W (r :: rest) x y
      = if x > min W r.count_graphemes
        then uncursor_loop W rest (x - min W r.count_graphemes) (y + 1)
        else (x, y) := rfl

theorem uncursor_loop_spec (W : Nat) :
    ∀ (rows : List Line), rows ≠ [] → ∀ (x y : Nat),
      x ≤ (rows.map Line.count_graphemes).sum →
      (∀ r ∈ rows, r.count_graphemes ≤ W) →
      ∃ j, j < rows.length ∧
        uncursor_loop W rows x y = ((uncursor_loop W rows x y).1, y + j) ∧
        (uncursor_loop W rows x y).1 ≤ (rows.getD j Line.new_start).count_graphemes := by
  intro rows
  induction rows with
  | nil => intro h; exact absurd rfl h
  | cons r rest ih =>
    intro _ x y hsum hbound
    have hrW : r.count_graphemes ≤ W := hbound r (by simp)
    have hmin : min W r.count_graphemes = r.count_graphemes := Nat.min_eq_right hrW
    by_cases hgt : x > min W r.count_graphemes
    · cases rest with
      | nil =>
        exfalso
        simp only [List.map_cons, List.map_nil, List.sum_cons, List.sum_nil] at hsum
        omega
      | cons r2 rest2 =>
        have hs2 : x - min W r.count_graphemes
            ≤ ((r2 :: rest2).map Line.count_graphemes).sum := by
          simp only [List.map_cons, List.sum_cons] at hsum ⊢
          omega
        obtain ⟨j, hj, heq, hxle⟩ := ih (by simp) (x - min W r.count_graphemes) (y + 1) hs2
          (fun rr hrr => hbound rr (by simp [hrr]))
        refine ⟨j + 1, by simpa using hj, ?_, ?_⟩
        · rw [uncursor_loop_cons, if_pos hgt, heq]
          dsimp only
          rw [(by omega : y + 1 + j = y + (j + 1))]
        · rw [uncursor_loop_cons, if_pos hgt, List.getD_cons_succ]
          exact hxle
    · refine ⟨0, by simp, ?_, ?_⟩
      · rw [uncursor_loop_cons, if_neg hgt]
        dsimp only
        rw [Nat.add_zero]
      · rw [uncursor_loop_cons, if_neg hgt, List.getD_cons_zero]
        dsimp only
        calc x ≤ min W r.count_graphemes := by omega
        _ ≤ r.count_graphemes := Nat.min_le_right _ _

theorem chunksOf_length_le (W : Nat) (hW : 1 ≤ W) :
    ∀ (n : Nat) (l : List Char), l.length ≤ n → ∀ ch ∈ chunksOf W l, ch.length ≤ W := by
  intro n
  induction n with
  | zero =>
    intro l hl ch hch
    have hnil : l = [] := by
      cases l with
      | nil => rfl
      | cons a as => simp at hl
    subst hnil
    rw [chunksOf_eq W hW] at hch
    simp at hch
  | succ n ih =>
    intro l hl ch hch
    by_cases hnil : l = []
    · subst hnil
      rw [chunksOf_eq W hW] at hch
      simp at hch
    · rw [chunksOf_eq W hW, if_neg hnil] at hch
      rcases List.mem_cons.mp hch with h | h
      · subst h
        simp only [List.length_take]
        exact Nat.min_le_left _ _
      · have hlt : (l.drop W).length ≤ n := by
          have : 0 < l.length := List.length_pos.mpr hnil
          simp only [List.length_drop]
          omega
        exact ih (l.drop W) hlt ch h

theorem uncompress_counts_sum (l : Line) (W P : Nat)
    (hk : l.kind = LineKind.Start) (hne : l.content ≠ []) (hWP : P + 1 ≤ W) :
    ((l.uncompress W P).map Line.count_graphemes).sum = l.content.length := by
  rw [uncompress_start_line l W P hk hne hWP]
  rw [List.map_cons, List.sum_cons, List.map_map]
  have hcomp : (Line.count_graphemes ∘ fun ch => (⟨ch, LineKind.Continue⟩ : Line))
      = List.length := rfl
  rw [hcomp]
  rw [← List.length_flatten, chunksOf_flatten W (by omega)]
  simp only [Line.count_graphemes, List.length_take, List.length_drop]
  omega

theorem range_map_uncompress_length (W P : Nat) (L : List Line) :
    ∀ n, n ≤ L.length →
      (((List.range n).map (fun y => (L.getD y Line.new_start).uncompress W P)).map
          List.length).sum
        = ((L.take n).flatMap (fun l => l.uncompress W P)).length := by
  intro n
  induction n with
  | zero => simp
  | succ n ih =>
    intro hn
    have hlt : n < L.length := by omega
    rw [List.range_succ, List.map_append, List.map_append, List.sum_append, ih (by omega)]
    rw [List.take_succ, List.getElem?_eq_getElem hlt]
    rw [List.flatMap_append]
    have hg : L.getD n Line.new_start = L[n] := by
      rw [List.getD_eq_getElem?_getD, List.getElem?_eq_getElem hlt]
      rfl
    simp [hg, List.getElem?_eq_getElem hlt]

theorem calculate_uncursor_out_of_claimed_bounds :
    calculate_uncursor (Cmd.mk [⟨['a'], LineKind.Start⟩])
        ((Cmd.mk [⟨['a'], LineKind.Start⟩]).uncompress 1 0) ⟨1, 0⟩ 1 0
      = ⟨1, 0⟩ ∧
    ¬ ((calculate_uncursor (Cmd.mk [⟨['a'], LineKind.Start⟩])
        ((Cmd.mk [⟨['a'], LineKind.Start⟩]).uncompress 1 0) ⟨1, 0⟩ 1 0).x < 1) := by
  refine ⟨by decide, by decide⟩

theorem calculate_uncursor_bounds (cmd : Cmd) (cursor : Coords) (W P : Nat)
    (hWP : P + 1 ≤ W)
    (hstart : ∀ l ∈ cmd.lines, l.kind = LineKind.Start)
    (hnonempty : ∀ l ∈ cmd.lines, l.content ≠ [])
    (hy : cursor.y < cmd.lines.length)
    (hx : cursor.x ≤ (cmd.lines.getD cursor.y Line.new_start).count_graphemes) :
    (calculate_uncursor cmd (cmd.uncompress W P) cursor W P).x ≤ W ∧
    (calculate_uncursor cmd (cmd.uncompress W P) cursor W P).y
      < (cmd.uncompress W P).count_lines := by
  unfold calculate_uncursor
  dsimp only
  set Ly := cmd.lines.getD cursor.y Line.new_start with hLydef
  set y0 := (List.map List.length
      (List.map (fun y => (cmd.lines.getD y Line.new_start).uncompress W P)
        (List.range cursor.y))).sum with hy0def
  set rows := Ly.uncompress W P with hrowsdef
  have hgetD : Ly = cmd.lines[cursor.y] := by
    rw [hLydef, List.getD_eq_getElem?_getD, List.getElem?_eq_getElem hy]
    rfl
  have hmem : cmd.lines[cursor.y] ∈ cmd.lines := List.getElem_mem hy
  have hky : Ly.kind = LineKind.Start := by rw [hgetD]; exact hstart _ hmem
  have hcne : Ly.content ≠ [] := by rw [hgetD]; exact hnonempty _ hmem
  have hrows_eq : rows
      = (⟨Ly.content.take (W - P), Ly.kind⟩ : Line)
        :: (chunksOf W (Ly.content.drop (W - P))).map
            (fun ch => (⟨ch, LineKind.Continue⟩ : Line)) :=
    uncompress_start_line Ly W P hky hcne hWP
  have hrows_ne : rows ≠ [] := by rw [hrows_eq]; simp
  have hbound : ∀ r ∈ rows, r.count_graphemes ≤ W := by
    rw [hrows_eq]
    intro r hr
    rcases List.mem_cons.mp hr with h | h
    · subst h
      simp only [Line.count_graphemes, List.length_take]
      omega
    · obtain ⟨ch, hch, rfl⟩ := List.mem_map.mp h
      simpa [Line.count_graphemes] using
        chunksOf_length_le W (by omega) (Ly.content.drop (W - P)).length _ le_rfl ch hch
  have hsum : cursor.x ≤ (rows.map Line.count_graphemes).sum := by
    rw [hrowsdef, uncompress_counts_sum Ly W P hky hcne hWP]
    exact hx
  obtain ⟨j, hj, hloop, hxle⟩ := uncursor_loop_spec W rows hrows_ne cursor.x y0 hsum hbound
  -- decompose the uncompressed rows around the cursor line
  have hwr : wrap_rows cmd W P = cmd.lines.flatMap (fun l => l.uncompress W P) := by
    unfold wrap_rows
    exact List.flatMap_congr (fun l hl => by
      rw [if_neg (by simpa [List.isEmpty_iff] using hnonempty l hl)])
  have hsplitL : cmd.lines
      = cmd.lines.take cursor.y ++ cmd.lines[cursor.y] :: cmd.lines.drop (cursor.y + 1) := by
    conv_lhs => rw [← List.take_append_drop cursor.y cmd.lines]
    rw [List.drop_eq_getElem_cons hy]
  have hwr2 : wrap_rows cmd W P
      = (cmd.lines.take cursor.y).flatMap (fun l => l.uncompress W P)
        ++ (rows ++ (cmd.lines.drop (cursor.y + 1)).flatMap (fun l => l.uncompress W P)) := by
    rw [hwr]
    conv_lhs => rw [hsplitL]
    rw [List.flatMap_append, List.flatMap_cons, ← hgetD, ← hrowsdef]
  have hy0len : y0
      = ((cmd.lines.take cursor.y).flatMap (fun l => l.uncompress W P)).length := by
    rw [hy0def]
    exact range_map_uncompress_length W P cmd.lines cursor.y (by omega)
  have hcases : (cmd.uncompress W P).lines = wrap_rows cmd W P
      ∨ (cmd.uncompress W P).lines = wrap_rows cmd W P ++ [Line.new_continue] := by
    rcases hlast : (wrap_rows cmd W P).getLast? with _ | last
    · left
      rw [(show cmd.uncompress W P = ⟨wrap_rows cmd W P⟩ by rw [uncompress_def, hlast])]
    · have hunc2 : cmd.uncompress W P
          = if last.fills_editor_width W P ((wrap_rows cmd W P).length - 1)
            then ⟨wrap_rows cmd W P ++ [Line.new_continue]⟩
            else ⟨wrap_rows cmd W P⟩ := by
        rw [uncompress_def, hlast]
      by_cases hf : last.fills_editor_width W P ((wrap_rows cmd W P).length - 1)
      · right
        rw [hunc2, if_pos hf]
      · left
        rw [hunc2, if_neg hf]
  have hylt : y0 + j < (wrap_rows cmd W P).length := by
    rw [hwr2, hy0len]
    simp only [List.length_append]
    omega
  have hlen_ge : (wrap_rows cmd W P).length ≤ (cmd.uncompress W P).lines.length := by
    rcases hcases with h | h <;> rw [h] <;> simp
  have hrow : (cmd.uncompress W P).lines.getD (y0 + j) Line.new_start
      = rows.getD j Line.new_start := by
    have h1 : (cmd.uncompress W P).lines[y0 + j]? = (wrap_rows cmd W P)[y0 + j]? := by
      rcases hcases with h | h
      · rw [h]
      · rw [h, List.getElem?_append_left hylt]
    have hpre : ((cmd.lines.take cursor.y).flatMap (fun l => l.uncompress W P)).length
        ≤ y0 + j := by omega
    have h2 : (wrap_rows cmd W P)[y0 + j]? = rows[j]? := by
      rw [hwr2, List.getElem?_append_right hpre,
        (show y0 + j
            - ((cmd.lines.take cursor.y).flatMap (fun l => l.uncompress W P)).length = j by
          omega),
        List.getElem?_append_left hj]
    rw [List.getD_eq_getElem?_getD, List.getD_eq_getElem?_getD, h1, h2]
  rw [hloop]
  dsimp only
  rw [hrow]
  have hcount : (cmd.uncompress W P).count_lines = (cmd.uncompress W P).lines.length := rfl
  cases j with
  | zero =>
    have hgd0 : rows.getD 0 Line.new_start
        = (⟨Ly.content.take (W - P), Ly.kind⟩ : Line) := by
      rw [hrows_eq, List.getD_cons_zero]
    rw [hgd0, if_pos (show (⟨Ly.content.take (W - P), Ly.kind⟩ : Line).is_start from hky)]
    constructor
    · show (uncursor_loop W rows cursor.x y0).1 + P ≤ W
      have hxle0 := hxle
      rw [hgd0] at hxle0
      simp only [Line.count_graphemes, List.length_take] at hxle0
      omega
    · show y0 + 0 < (cmd.uncompress W P).count_lines
      rw [hcount]
      omega
  | succ j' =>
    have hjlt : j' < ((chunksOf W (Ly.content.drop (W - P))).map
        (fun ch => (⟨ch, LineKind.Continue⟩ : Line))).length := by
      rw [hrows_eq] at hj
      simpa using hj
    have hgd : rows.getD (j' + 1) Line.new_start
        = ((chunksOf W (Ly.content.drop (W - P))).map
            (fun ch => (⟨ch, LineKind.Continue⟩ : Line))).getD j' Line.new_start := by
      rw [hrows_eq, List.getD_cons_succ]
    have hkindc : (rows.getD (j' + 1) Line.new_start).kind = LineKind.Continue := by
      rw [hgd, List.getD_eq_getElem?_getD, List.getElem?_eq_getElem hjlt]
      simp
    rw [if_neg (by
      intro hs
      have hs' : (rows.getD (j' + 1) Line.new_start).kind = LineKind.Start := hs
      rw [hkindc] at hs'
      exact LineKind.noConfusion hs')]
    constructor
    · show (uncursor_loop W rows cursor.x y0).1 ≤ W
      have hmem2 : rows.getD (j' + 1) Line.new_start ∈ rows := by
        have hjr : j' + 1 < rows.length := hj
        rw [List.getD_eq_getElem?_getD, List.getElem?_eq_getElem hjr]
        exact List.getElem_mem hjr
      exact le_trans hxle (hbound _ hmem2)
    · show y0 + (j' + 1) < (cmd.uncompress W P).count_lines
      rw [hcount]
      omega

theorem calculate_uncursor_bounds_witness :
    (calculate_uncursor (Cmd.mk [⟨['a', 'b'], LineKind.Start⟩])
        ((Cmd.mk [⟨['a', 'b'], LineKind.Start⟩]).uncompress 3 1) ⟨2, 0⟩ 3 1).x ≤ 3 ∧
    (calculate_uncursor (Cmd.mk [⟨['a', 'b'], LineKind.Start⟩])
        ((Cmd.mk [⟨['a', 'b'], LineKind.Start⟩]).uncompress 3 1) ⟨2, 0⟩ 3 1).y
      < ((Cmd.mk [⟨['a', 'b'], LineKind.Start⟩]).uncompress 3 1).count_lines :=
  calculate_uncursor_bounds (Cmd.mk [⟨['a', 'b'], LineKind.Start⟩]) ⟨2, 0⟩ 3 1
    (by omega) (by decide) (by decide) (by decide) (by decide)

theorem foldl_cons_eq_reverse :
    ∀ (l acc : List Cmd), l.foldl (fun cmds cmd => cmd :: cmds) acc = l.reverse ++ acc := by
  intro l
  induction l with
  | nil => intro acc; simp
  | cons a as ih =>
    intro acc
    rw [List.foldl_cons, ih]
    simp

theorem uniqueAux_cons (seen : List Cmd) (c : Cmd) (cs : List Cmd) :
    uniqueAux seen (c :: cs)
      = if c ∈ seen then uniqueAux seen cs else c :: uniqueAux (c :: seen) cs := rfl

theorem uniqueAux_of_nodup_disjoint :
    ∀ (l seen : List Cmd), l.Nodup → (∀ x ∈ l, x ∉ seen) → uniqueAux seen l = l := by
  intro l
  induction l with
  | nil => intro seen _ _; rfl
  | cons c cs ih =>
    intro seen hnd hdisj
    rw [uniqueAux_cons, if_neg (hdisj c (by simp))]
    congr 1
    refine ih (c :: seen) (List.Nodup.of_cons hnd) ?_
    intro x hx
    simp only [List.mem_cons, not_or]
    refine ⟨?_, hdisj x (by simp [hx])⟩
    intro hxc
    subst hxc
    exact (List.nodup_cons.mp hnd).1 hx

theorem uniqueAux_append_of_nodup :
    ∀ (xs seen ys : List Cmd), xs.Nodup → (∀ x ∈ xs, x ∉ seen) →
      uniqueAux seen (xs ++ ys) = xs ++ uniqueAux (xs.reverse ++ seen) ys := by
  intro xs
  induction xs with
  | nil => intro seen ys _ _; simp
  | cons c cs ih =>
    intro seen ys hnd hdisj
    rw [List.cons_append, uniqueAux_cons, if_neg (hdisj c (by simp))]
    rw [ih (c :: seen) ys (List.Nodup.of_cons hnd) ?_]
    · congr 2
      simp
    · intro x hx
      simp only [List.mem_cons, not_or]
      refine ⟨?_, hdisj x (by simp [hx])⟩
      intro hxc
      subst hxc
      exact (List.nodup_cons.mp hnd).1 hx

theorem trimmed_spec :
    (∀ h : History,
      h.trimmed = ⟨((uniqueAux [] h.cmds.reverse).take History.UPPER_LIMIT).reverse⟩) ∧
    (∀ (a b d : List Cmd) (c : Cmd), c ∉ a → c ∉ b → c ∉ d → (a ++ b ++ d).Nodup →
      (a ++ [c] ++ b ++ [c] ++ d).length ≤ 1000 →
      History.trimmed ⟨a ++ [c] ++ b ++ [c] ++ d⟩ = ⟨a ++ b ++ [c] ++ d⟩) ∧
    (∀ l : List Cmd, l.Nodup → 1000 ≤ l.length →
      History.trimmed ⟨l⟩ = ⟨l.drop (l.length - 1000)⟩ ∧ (History.trimmed ⟨l⟩).len = 1000) := by
  have hmain : ∀ h : History,
      h.trimmed = ⟨((uniqueAux [] h.cmds.reverse).take History.UPPER_LIMIT).reverse⟩ := by
    intro h
    unfold History.trimmed
    rw [foldl_cons_eq_reverse, List.append_nil]
  refine ⟨hmain, ?_, ?_⟩
  · intro a b d c hca hcb hcd hnd hlen
    obtain ⟨hand, hbnd, hdnd, hab, had, hbd⟩ :
        a.Nodup ∧ b.Nodup ∧ d.Nodup ∧ a.Disjoint b ∧ a.Disjoint d ∧ b.Disjoint d := by
      rw [List.nodup_append, List.nodup_append] at hnd
      obtain ⟨⟨ha, hb, hab⟩, hd, habd⟩ := hnd
      refine ⟨ha, hb, hd, hab, ?_, ?_⟩
      · intro x hxa hxd
        exact habd (by simp [hxa]) hxd
      · intro x hxb hxd
        exact habd (by simp [hxb]) hxd
    rw [hmain]
    have hrev : (a ++ [c] ++ b ++ [c] ++ d).reverse
        = d.reverse ++ (c :: (b.reverse ++ (c :: a.reverse))) := by
      simp
    rw [hrev]
    rw [uniqueAux_append_of_nodup d.reverse [] _ (List.nodup_reverse.mpr hdnd) (by simp)]
    rw [(by simp : d.reverse.reverse ++ ([] : List Cmd) = d)]
    rw [uniqueAux_cons, if_neg hcd]
    rw [uniqueAux_append_of_nodup b.reverse (c :: d) _ (List.nodup_reverse.mpr hbnd) (by
      intro x hx
      simp only [List.mem_reverse] at hx
      simp only [List.mem_cons, not_or]
      refine ⟨?_, fun hxd => hbd hx hxd⟩
      intro hxc
      subst hxc
      exact hcb hx)]
    rw [(by simp : b.reverse.reverse ++ (c :: d) = b ++ (c :: d))]
    rw [uniqueAux_cons, if_pos (by simp)]
    rw [uniqueAux_of_nodup_disjoint a.reverse (b ++ (c :: d)) (List.nodup_reverse.mpr hand) (by
      intro x hx
      simp only [List.mem_reverse] at hx
      simp only [List.mem_append, List.mem_cons, not_or]
      refine ⟨fun hxb => hab hx hxb, ?_, fun hxd => had hx hxd⟩
      intro hxc
      subst hxc
      exact hca hx)]
    rw [List.take_of_length_le (by
      simp only [List.length_append, List.length_cons, List.length_reverse]
      simp only [List.length_append, List.length_cons] at hlen
      simp only [History.UPPER_LIMIT]
      omega)]
    congr 1
    simp
  · intro l hnd hge
    have htr : History.trimmed ⟨l⟩ = ⟨l.drop (l.length - 1000)⟩ := by
      rw [hmain]
      rw [uniqueAux_of_nodup_disjoint l.reverse [] (List.nodup_reverse.mpr hnd) (by simp)]
      refine congrArg History.mk ?_
      simp only [History.UPPER_LIMIT]
      rw [List.take_reverse, List.reverse_reverse]
    refine ⟨htr, ?_⟩
    rw [htr]
    simp only [History.len, List.length_drop]
    omega

theorem trimmed_spec_witness :
    History.trimmed ⟨[Cmd.mk [⟨['a'], LineKind.Start⟩], Cmd.mk [⟨['c'], LineKind.Start⟩],
        Cmd.mk [⟨['b'], LineKind.Start⟩], Cmd.mk [⟨['c'], LineKind.Start⟩],
        Cmd.mk [⟨['d'], LineKind.Start⟩]]⟩
      = ⟨[Cmd.mk [⟨['a'], LineKind.Start⟩], Cmd.mk [⟨['b'], LineKind.Start⟩],
          Cmd.mk [⟨['c'], LineKind.Start⟩], Cmd.mk [⟨['d'], LineKind.Start⟩]]⟩ ∧
    History.trimmed
        ⟨(List.range 1001).map (fun n => Cmd.mk [⟨List.replicate n 'a', LineKind.Start⟩])⟩
      = ⟨((List.range 1001).map
            (fun n => Cmd.mk [⟨List.replicate n 'a', LineKind.Start⟩])).drop
          (((List.range 1001).map
            (fun n => Cmd.mk [⟨List.replicate n 'a', LineKind.Start⟩])).length - 1000)⟩ := by
  constructor
  · exact trimmed_spec.2.1 [Cmd.mk [⟨['a'], LineKind.Start⟩]] [Cmd.mk [⟨['b'], LineKind.Start⟩]]
      [Cmd.mk [⟨['d'], LineKind.Start⟩]] (Cmd.mk [⟨['c'], LineKind.Start⟩])
      (by decide) (by decide) (by decide) (by decide) (by decide)
  · have hinj : Function.Injective
        (fun n : Nat => Cmd.mk [⟨List.replicate n 'a', LineKind.Start⟩]) := by
      intro m n h
      have h2 := congrArg
        (fun c : Cmd => ((c.lines.getD 0 Line.new_start).content).length) h
      simpa using h2
    exact (trimmed_spec.2.2
      ((List.range 1001).map (fun n => Cmd.mk [⟨List.replicate n 'a', LineKind.Start⟩]))
      (List.Nodup.map hinj (List.nodup_range 1001)) (by simp)).1

theorem enumFrom_pairwise_fst_lt {α : Type} :
    ∀ (l : List α) (n : Nat), (List.enumFrom n l).Pairwise (fun p q => p.1 < q.1) := by
  intro l
  induction l with
  | nil => intro n; simp
  | cons a as ih =>
    intro n
    rw [List.enumFrom_cons]
    refine List.Pairwise.cons ?_ (ih (n + 1))
    rintro ⟨j, x⟩ hj
    have := (List.mk_mem_enumFrom_iff_le_and_getElem?_sub.mp hj).1
    simpa using by omega

theorem reverse_search_spec (h : History) (matcher : Option (List Char → Bool)) :
    (matcher = none → h.reverse_search matcher = []) ∧
    (∀ is_match, matcher = some is_match →
      (h.reverse_search matcher).Pairwise (fun i j => j < i) ∧
      (∀ i : Nat, i ∈ h.reverse_search matcher ↔
        ∃ c : Cmd, h.cmds[i]? = some c ∧ is_match c.to_source_code = true)) := by
  constructor
  · intro hm
    rw [hm]
    rfl
  · intro m hm
    subst hm
    show (((h.cmds.enum.reverse).filter (fun p => m p.2.to_source_code)).map
        (fun p => p.1)).Pairwise (fun i j => j < i) ∧ _
    constructor
    · refine List.pairwise_map.mpr ?_
      refine List.Pairwise.filter _ ?_
      refine List.pairwise_reverse.mpr ?_
      exact enumFrom_pairwise_fst_lt h.cmds 0
    · intro i
      show i ∈ ((h.cmds.enum.reverse).filter (fun p => m p.2.to_source_code)).map
          (fun p => p.1) ↔ _
      simp only [List.mem_map, List.mem_filter, List.mem_reverse,
        List.mem_enum_iff_getElem?]
      constructor
      · rintro ⟨⟨j, c⟩, ⟨hmem, hmatch⟩, rfl⟩
        exact ⟨c, hmem, hmatch⟩
      · rintro ⟨c, hget, hmatch⟩
        exact ⟨(i, c), ⟨hget, hmatch⟩, rfl⟩

theorem reverse_search_spec_witness :
    (History.mk [Cmd.mk [⟨['p', 'r', 'i', 'n', 't', ' ', '1'], LineKind.Start⟩],
        Cmd.mk [⟨['p', 'r', 'i', 'n', 't', ' ', '2'], LineKind.Start⟩],
        Cmd.mk [⟨['d', 'r', 'a', 'w', ' ', '3'], LineKind.Start⟩]]).reverse_search none
      = [] ∧
    ((History.mk [Cmd.mk [⟨['p', 'r', 'i', 'n', 't', ' ', '1'], LineKind.Start⟩],
        Cmd.mk [⟨['p', 'r', 'i', 'n', 't', ' ', '2'], LineKind.Start⟩],
        Cmd.mk [⟨['d', 'r', 'a', 'w', ' ', '3'], LineKind.Start⟩]]).reverse_search
          (some (fun src => decide (src.take 3 = ['p', 'r', 'i'])))).Pairwise
      (fun i j => j < i) ∧
    (1 ∈ (History.mk [Cmd.mk [⟨['p', 'r', 'i', 'n', 't', ' ', '1'], LineKind.Start⟩],
        Cmd.mk [⟨['p', 'r', 'i', 'n', 't', ' ', '2'], LineKind.Start⟩],
        Cmd.mk [⟨['d', 'r', 'a', 'w', ' ', '3'], LineKind.Start⟩]]).reverse_search
          (some (fun src => decide (src.take 3 = ['p', 'r', 'i']))) ↔
      ∃ c : Cmd, (History.mk [Cmd.mk [⟨['p', 'r', 'i', 'n', 't', ' ', '1'], LineKind.Start⟩],
        Cmd.mk [⟨['p', 'r', 'i', 'n', 't', ' ', '2'], LineKind.Start⟩],
        Cmd.mk [⟨['d', 'r', 'a', 'w', ' ', '3'], LineKind.Start⟩]]).cmds[1]? = some c ∧
        decide (c.to_source_code.take 3 = ['p', 'r', 'i']) = true) :=
  ⟨(reverse_search_spec _ none).1 rfl,
   ((reverse_search_spec _ _).2 (fun src => decide (src.take 3 = ['p', 'r', 'i'])) rfl).1,
   ((reverse_search_spec _ _).2 (fun src => decide (src.take 3 = ['p', 'r', 'i'])) rfl).2 1⟩

theorem cancel_nav_restores_backup :
    (∀ (buffer : Cmd) (cursor : Coords) (h : History), h.cmds ≠ [] →
      cmd_cancel_nav (cmd_nav_history_up (State.Edit ⟨buffer, cursor⟩) h)
        = State.Edit ⟨buffer, buffer.end_of_cmd⟩) ∧
    (∀ ss : SearchState,
      cmd_cancel_nav (State.Search ss) = State.Edit ⟨ss.backup, ss.backup.end_of_cmd⟩) := by
  constructor
  · intro buffer cursor h hne
    have hmax : h.max_idx = some (h.cmds.length - 1) := by
      unfold History.max_idx History.len
      rw [if_pos (by
        cases hc : h.cmds with
        | nil => exact absurd hc hne
        | cons a as => simp)]
    unfold cmd_nav_history_up
    rw [hmax]
    rfl
  · intro ss
    rfl

theorem cancel_nav_restores_backup_witness :
    cmd_cancel_nav (cmd_nav_history_up
        (State.Edit ⟨Cmd.mk [⟨['x', 'y'], LineKind.Start⟩], ⟨1, 0⟩⟩)
        (History.mk [Cmd.mk [⟨['a'], LineKind.Start⟩]]))
      = State.Edit ⟨Cmd.mk [⟨['x', 'y'], LineKind.Start⟩],
          (Cmd.mk [⟨['x', 'y'], LineKind.Start⟩]).end_of_cmd⟩ ∧
    cmd_cancel_nav (State.Search ⟨['p'], Cmd.mk [⟨['z'], LineKind.Start⟩],
        Cmd.default, ⟨0, 0⟩, [], 0⟩)
      = State.Edit ⟨Cmd.mk [⟨['z'], LineKind.Start⟩],
          (Cmd.mk [⟨['z'], LineKind.Start⟩]).end_of_cmd⟩ :=
  ⟨cancel_nav_restores_backup.1 (Cmd.mk [⟨['x', 'y'], LineKind.Start⟩]) ⟨1, 0⟩
      (History.mk [Cmd.mk [⟨['a'], LineKind.Start⟩]]) (by decide),
   cancel_nav_restores_backup.2
      ⟨['p'], Cmd.mk [⟨['z'], LineKind.Start⟩], Cmd.default, ⟨0, 0⟩, [], 0⟩⟩

theorem foldl_add_cmd_length :
    ∀ (l : List Cmd) (h : History),
      ((l.foldl (fun h c => (h.add_cmd c).1) h).cmds).length = h.cmds.length + l.length := by
  intro l
  induction l with
  | nil => intro h; simp
  | cons a as ih =>
    intro h
    rw [List.foldl_cons, ih]
    simp only [History.add_cmd, List.length_append, List.length_cons, List.length_nil]
    omega

theorem history_unbounded_in_memory :
    (((List.replicate 1001 (Cmd.mk [⟨['a'], LineKind.Start⟩])).foldl
        (fun h c => (h.add_cmd c).1) History.default).cmds).length = 1001 ∧
    ¬ ((((List.replicate 1001 (Cmd.mk [⟨['a'], LineKind.Start⟩])).foldl
        (fun h c => (h.add_cmd c).1) History.default).cmds).length
      ≤ History.UPPER_LIMIT) := by
  have h := foldl_add_cmd_length
    (List.replicate 1001 (Cmd.mk [⟨['a'], LineKind.Start⟩])) History.default
  constructor
  · rw [h, List.length_replicate]
    decide
  · rw [h, List.length_replicate]
    decide

theorem trimmed_len_le_upper_limit (h : History) :
    (h.trimmed).len ≤ History.UPPER_LIMIT := by
  unfold History.trimmed History.len
  rw [foldl_cons_eq_reverse, List.append_nil]
  simp only [List.length_reverse, List.length_take]
  exact Nat.min_le_left _ _
